import Mathlib

/-
Shallow embedding of src/elegant/gui/stage_field.py (class StageField).

Pages live in an externally owned flipbook; each page carries an optional
stage label (the annotation value keyed by the field name) and an optional
display color.  The two repair passes of the source are modelled as pure
functions over a list of pages; in-place mutation of page objects becomes
functional update of the list, and a raised exception becomes a `some`
error component of the returned pair (the pages component carries whatever
mutations happened before the raise, matching the accepted partial-mutation
behavior of the source).
-/

set_option maxHeartbeats 1000000

/-- RGB triple, as the source's color tuples. -/
abbrev Color := Nat × Nat × Nat

/-- One flipbook page: the stage annotation for this field (None when unset)
and the display color assigned by update_widget. -/
structure Page where
  label : Option String
  color : Option Color
deriving DecidableEq

instance : Inhabited Page := ⟨⟨none, none⟩⟩

/-- StageField.FIRST_COLOR. -/
def FIRST_COLOR : Color := (255, 255, 255)

/-- StageField.LAST_COLOR. -/
def LAST_COLOR : Color := (184, 184, 184)

/-- The five colors fed to itertools.cycle in StageField.COLOR_CYCLE. -/
def COLOR_CYCLE : List Color :=
  [(184, 255, 184), (255, 255, 184), (184, 184, 255), (255, 184, 184), (255, 184, 255)]

/-- Index of the last occurrence of s in l.  The source builds
stage_indices as a dict comprehension over enumerate(stages); a dict keeps
the latest write for a key, so a lookup returns the last occurrence index. -/
def lastIndexOf (l : List String) (s : String) : Option Nat :=
  match l with
  | [] => none
  | a :: rest =>
    match lastIndexOf rest s with
    | some i => some (i + 1)
    | none => if a = s then some 0 else none

/-- self.stage_indices.get(page_stage, dflt): a None label or a label that is
not a known stage name falls back to the supplied default. -/
def stageIndicesGet (stages : List String) (label : Option String) (dflt : Int) : Int :=
  match label with
  | none => dflt
  | some s =>
    match lastIndexOf stages s with
    | some i => (i : Int)
    | none => dflt

/-- Python list indexing stages[i] for the (possibly negative) running index.
In the source the index is always in range here (youngest_stage_i is never
below -1 and oldest_stage_i is a valid index when it is read), so the
out-of-range default "" is unreachable in the uses below. -/
def pyGetStages (l : List String) (i : Int) : String :=
  if 0 ≤ i then l.getD i.toNat "" else l.getD (l.length - (-i).toNat) ""

/-- transition[0]: the first letter of a transition name, as a one-character
string; none when the name is empty (Python raises IndexError there). -/
def transitionFirstLetter (t : String) : Option String :=
  t.toList.head?.map (fun c => String.mk [c])

/-- The default shortcut list [transition[0] for transition in transitions];
none when some transition name is empty (the comprehension raises). -/
def defaultShortcuts : List String → Option (List String)
  | [] => some []
  | t :: ts =>
    match transitionFirstLetter t, defaultShortcuts ts with
    | some c, some cs => some (c :: cs)
    | _, _ => none

/-- The first n colors drawn from itertools.cycle(COLOR_CYCLE). -/
def cycleColors (n : Nat) : List Color :=
  (List.range n).map (fun j => COLOR_CYCLE.getD (j % COLOR_CYCLE.length) (0, 0, 0))

/-- The writes performed on self.colors, in order: the dict literal with
stages[0] and stages[-1], then colors.update(zip(stages[1:-1], COLOR_CYCLE)).
COLOR_CYCLE is one class-level itertools.cycle shared by every construction in
a process, so this definition models the first construction of a process (the
cycle still at its start); colorWritesFrom below models a construction after
the shared cycle has already served some colors. -/
def colorWrites (stages : List String) : List (String × Color) :=
  [(stages.getD 0 "", FIRST_COLOR), (stages.getD (stages.length - 1) "", LAST_COLOR)]
    ++ ((stages.drop 1).dropLast).zip (cycleColors (stages.length - 2))

/-- Dict lookup on a write list: the latest write for the key wins, as for a
Python dict built by those writes; none models a KeyError. -/
def colorsFind (colors : List (String × Color)) (s : String) : Option Color :=
  (colors.reverse.find? (fun kv => decide (kv.1 = s))).map (fun kv => kv.2)

/-- The configuration state built by StageField.__init__. -/
structure StageField where
  name : String
  stages : List String
  transitions : List String
  shortcuts : List String
  colors : List (String × Color)
deriving DecidableEq

/-- StageField.__init__: asserts len(transitions) == len(stages) - 1 (an Int
comparison, as in Python, so empty stages with empty transitions still fails),
defaults the shortcuts to the first letter of each transition (raising when a
transition name is empty), and builds the color dict; none models a raised
construction error. -/
def StageField.init (name : String) (stages transitions : List String)
    (shortcuts : Option (List String)) : Option StageField :=
  if (transitions.length : Int) = (stages.length : Int) - 1 then
    match shortcuts with
    | some sc => some ⟨name, stages, transitions, sc, colorWrites stages⟩
    | none =>
      (defaultShortcuts transitions).map
        (fun sc => ⟨name, stages, transitions, sc, colorWrites stages⟩)
  else
    none

/-- The next n colors served by the class-level itertools.cycle after it has
already served off colors to earlier constructions in the same process. -/
def cycleColorsFrom (off n : Nat) : List Color :=
  (List.range n).map (fun j => COLOR_CYCLE.getD ((off + j) % COLOR_CYCLE.length) (0, 0, 0))

/-- The writes performed on self.colors by a construction that finds the
shared class-level COLOR_CYCLE already advanced by off draws; zip pulls
exactly one cycle color per interior stage. -/
def colorWritesFrom (off : Nat) (stages : List String) : List (String × Color) :=
  [(stages.getD 0 "", FIRST_COLOR), (stages.getD (stages.length - 1) "", LAST_COLOR)]
    ++ ((stages.drop 1).dropLast).zip (cycleColorsFrom off (stages.length - 2))

/-- StageField.__init__ as invoked when the shared class-level COLOR_CYCLE has
already served off colors to earlier constructions in the same process; the
construction itself consumes stages.length - 2 further colors, so the next
construction in the process starts at off + (stages.length - 2).
StageField.init above is the first construction of a process (off = 0). -/
def StageField.initFrom (off : Nat) (name : String) (stages transitions : List String)
    (shortcuts : Option (List String)) : Option StageField :=
  if (transitions.length : Int) = (stages.length : Int) - 1 then
    match shortcuts with
    | some sc => some ⟨name, stages, transitions, sc, colorWritesFrom off stages⟩
    | none =>
      (defaultShortcuts transitions).map
        (fun sc => ⟨name, stages, transitions, sc, colorWritesFrom off stages⟩)
  else
    none

/-- The color write at the end of the update_widget loop body: a page whose
(possibly just repaired) label is None gets color None, otherwise
self.colors[page_stage]; none models the KeyError when the label is not a
color key. -/
def setPageColor (sf : StageField) (p : Page) : Option Page :=
  match p.label with
  | none => some { p with color := none }
  | some s => (colorsFind sf.colors s).map (fun c => { p with color := some c })

/-- The for loop of StageField.update_widget over self.flipbook.pages,
carrying oldest_stage_i.  An unset or unknown label reads as -1; a page whose
position is above the running maximum raises it, a page strictly below it has
its label overwritten with stages[oldest_stage_i], the equal case (including
both unset) is left untouched.  A KeyError from the color lookup aborts the
loop, keeping the mutations made so far. -/
def forwardLoop (sf : StageField) (oldest : Int) : List Page → List Page × Option String
  | [] => ([], none)
  | p :: rest =>
    let i := stageIndicesGet sf.stages p.label (-1)
    if i > oldest then
      match setPageColor sf p with
      | none => (p :: rest, some "KeyError")
      | some p2 =>
        let r := forwardLoop sf i rest
        (p2 :: r.1, r.2)
    else if i < oldest then
      let p1 : Page := { p with label := some (pyGetStages sf.stages oldest) }
      match setPageColor sf p1 with
      | none => (p1 :: rest, some "KeyError")
      | some p2 =>
        let r := forwardLoop sf oldest rest
        (p2 :: r.1, r.2)
    else
      match setPageColor sf p with
      | none => (p :: rest, some "KeyError")
      | some p2 =>
        let r := forwardLoop sf oldest rest
        (p2 :: r.1, r.2)

/-- StageField.update_widget: validates the value (None clears the label text,
a known stage shows it, anything else raises ValueError before the loop runs),
then runs the forward repair and recolor loop with oldest_stage_i = -1. -/
def update_widget (sf : StageField) (value : Option String) (pages : List Page) :
    List Page × Option String :=
  match value with
  | none => forwardLoop sf (-1) pages
  | some v =>
    if v ∈ sf.stages then forwardLoop sf (-1) pages
    else (pages, some ("Value " ++ v ++ " not in list of stages."))

/-- The for loop of StageField.set_stage over self.flipbook.pages[fb_i-1::-1],
carrying youngest_stage_i.  The counter n is the number of pages still to
visit, so the call with counter n visits indices n-1, n-2, ..., 0.  An unset
or unknown label reads as len(stages), so it never lowers the running index
and is always overwritten with stages[youngest_stage_i]. -/
def backwardLoop (sf : StageField) : Int → List Page → Nat → List Page
  | _, pages, 0 => pages
  | y, pages, n + 1 =>
    let p := pages.getD n default
    let i := stageIndicesGet sf.stages p.label (sf.stages.length : Int)
    if i < y then
      backwardLoop sf i pages n
    else
      backwardLoop sf y (pages.set n { p with label := some (pyGetStages sf.stages y) }) n

/-- StageField.set_stage: writes the target stage onto the current page (the
inherited update_annotation call, whose contract per the spec is to write the
value into the current page's label storage), runs the backward pass over the
pages strictly before index fb_i when fb_i > 0, and finishes with
update_widget(stage).  A KeyError from self.stage_indices[stage] (target not
a known stage, impossible through the transition buttons) aborts after the
label write. -/
def set_stage (sf : StageField) (pages : List Page) (fb_i : Nat) (stage : String) :
    List Page × Option String :=
  let pages1 := pages.set fb_i { pages.getD fb_i default with label := some stage }
  match lastIndexOf sf.stages stage with
  | none => (pages1, some "KeyError")
  | some idx =>
    let pages2 :=
      if 0 < fb_i then backwardLoop sf ((idx : Int) - 1) pages1 fb_i else pages1
    update_widget sf (some stage) pages2

/-- Modelled from the spec: the backward pass of setStage as the spec words
it, walking an explicit list of page indices (strictly before the current
page, in reverse sequence order) and maintaining the youngest-allowed index;
a page whose position (unset reading as greater than every real stage) is
strictly below youngest-allowed is left untouched and lowers youngest-allowed,
any other page has its label overwritten with stages[youngest-allowed].
Used to state the refinement claim about the backward pass of set_stage. -/
def visitBackward (sf : StageField) : Int → List Nat → List Page → List Page
  | _, [], pages => pages
  | y, j :: rest, pages =>
    let p := pages.getD j default
    let pos := stageIndicesGet sf.stages p.label (sf.stages.length : Int)
    if pos < y then
      visitBackward sf pos rest pages
    else
      visitBackward sf y rest (pages.set j { p with label := some (pyGetStages sf.stages y) })

/-- Stage position of a page's label, with the forward pass convention that
an unset or unknown label reads as -1. -/
def posOf (sf : StageField) (p : Page) : Int :=
  stageIndicesGet sf.stages p.label (-1)

/-- A page label is either unset or a known stage name. -/
def pageLabelOk (sf : StageField) (p : Page) : Bool :=
  match p.label with
  | none => true
  | some s => decide (s ∈ sf.stages)

/-- Every key of the color dict is a known stage name. -/
def colorKeysValid (sf : StageField) : Bool :=
  sf.colors.all (fun kv => decide (kv.1 ∈ sf.stages))

/-- Every known stage name is a key of the color dict. -/
def colorKeysComplete (sf : StageField) : Bool :=
  sf.stages.all (fun s => (colorsFind sf.colors s).isSome)

/-- A sequence of set_stage calls, each a pair of current page index and
target stage, threaded left to right through the page list. -/
def runSetStages (sf : StageField) (pages : List Page) (calls : List (Nat × String)) :
    List Page :=
  calls.foldl (fun ps c => (set_stage sf ps c.1 c.2).1) pages

/-- The monotonicity invariant as the spec words it: for every adjacent pair
of pages with both labels set, the stage position of the earlier page is at
most the stage position of the later page. -/
def stagesMonotone (sf : StageField) (pages : List Page) : Prop :=
  List.Chain'
    (fun p q => ∀ a b, p.label = some a → q.label = some b →
      stageIndicesGet sf.stages (some a) (-1) ≤ stageIndicesGet sf.stages (some b) (-1))
    pages

/-- The running maximum stage position (oldest_stage_i) accumulated by the
forward pass over a list of pages, starting from -1. -/
def runMax (sf : StageField) (pages : List Page) : Int :=
  pages.foldl (fun o p => max o (posOf sf p)) (-1)

/-- Invariant carried by oldest_stage_i through the forward loop: it is the
initial -1 or a valid stage index fixed by the index lookup (looking up the
stage name stored at that index returns the index itself, because the index
recorded in stage_indices is the last occurrence of the name). -/
def InvO (sf : StageField) (o : Int) : Prop :=
  o = -1 ∨
    (0 ≤ o ∧ o.toNat < sf.stages.length ∧
      lastIndexOf sf.stages (pyGetStages sf.stages o) = some o.toNat)

/-- The default construction of the source, with explicit shortcuts, used as
a concrete instance in witnesses. -/
def sfEx : StageField :=
  ⟨"stage", ["egg", "larva", "adult", "dead"], ["hatch", "adult", "dead"],
    ["h", "a", "d"], colorWrites ["egg", "larva", "adult", "dead"]⟩

/-- Five pages with no annotation, as in the walk-through scenario. -/
def pages5 : List Page := List.replicate 5 { label := none, color := none }

theorem lastIndexOf_mem {l : List String} {s : String} {i : Nat}
    (h : lastIndexOf l s = some i) : s ∈ l := by
  induction l generalizing i with
  | nil => simp [lastIndexOf] at h
  | cons a rest ih =>
    simp only [lastIndexOf] at h
    cases hr : lastIndexOf rest s with
    | some j => rw [hr] at h; exact List.mem_cons_of_mem _ (ih hr)
    | none =>
      rw [hr] at h
      by_cases ha : a = s
      · simp [ha]
      · simp [ha] at h

theorem lastIndexOf_isSome_of_mem {l : List String} {s : String} (h : s ∈ l) :
    (lastIndexOf l s).isSome = true := by
  induction l with
  | nil => simp at h
  | cons a rest ih =>
    simp only [lastIndexOf]
    cases hr : lastIndexOf rest s with
    | some j => simp
    | none =>
      rcases List.mem_cons.mp h with h1 | h2
      · simp [h1.symm]
      · have hi := ih h2
        rw [hr] at hi
        simp at hi

theorem lastIndexOf_lt_length {l : List String} {s : String} {i : Nat}
    (h : lastIndexOf l s = some i) : i < l.length := by
  induction l generalizing i with
  | nil => simp [lastIndexOf] at h
  | cons a rest ih =>
    simp only [lastIndexOf] at h
    cases hr : lastIndexOf rest s with
    | some j =>
      rw [hr] at h
      simp only [Option.some.injEq] at h
      have := ih hr
      simp [List.length_cons]
      omega
    | none =>
      rw [hr] at h
      by_cases ha : a = s
      · simp [ha] at h
        simp [List.length_cons]
        omega
      · simp [ha] at h

theorem lastIndexOf_getD {l : List String} {s : String} {i : Nat}
    (h : lastIndexOf l s = some i) : l.getD i "" = s := by
  induction l generalizing i with
  | nil => simp [lastIndexOf] at h
  | cons a rest ih =>
    simp only [lastIndexOf] at h
    cases hr : lastIndexOf rest s with
    | some j =>
      rw [hr] at h
      simp only [Option.some.injEq] at h
      subst h
      simpa using ih hr
    | none =>
      rw [hr] at h
      by_cases ha : a = s
      · simp [ha] at h
        subst h
        simpa using ha
      · simp [ha] at h

theorem lastIndexOf_eq_none_of_not_mem {l : List String} {s : String} (h : s ∉ l) :
    lastIndexOf l s = none := by
  cases hr : lastIndexOf l s with
  | none => rfl
  | some i => exact absurd (lastIndexOf_mem hr) h

theorem lastIndexOf_of_mem_drop_one {l : List String} {s : String}
    (h : s ∈ l.drop 1) : ∃ i, lastIndexOf l s = some i ∧ 1 ≤ i := by
  cases l with
  | nil => simp at h
  | cons a rest =>
    simp only [List.drop_succ_cons, List.drop_zero] at h
    have hs := lastIndexOf_isSome_of_mem h
    cases hr : lastIndexOf rest s with
    | none => rw [hr] at hs; simp at hs
    | some j => exact ⟨j + 1, by simp [lastIndexOf, hr], by omega⟩

theorem pyGetStages_nonneg {l : List String} {i : Int} (h : 0 ≤ i) :
    pyGetStages l i = l.getD i.toNat "" := by
  simp [pyGetStages, h]

theorem pyGetStages_mem {l : List String} {i : Int} (h0 : 0 ≤ i)
    (hl : i.toNat < l.length) : pyGetStages l i ∈ l := by
  rw [pyGetStages_nonneg h0, List.getD_eq_getElem l "" hl]
  exact List.getElem_mem hl

theorem InvO_neg1 (sf : StageField) : InvO sf (-1) := Or.inl rfl

theorem InvO_of_lastIndexOf {sf : StageField} {s : String} {n : Nat}
    (h : lastIndexOf sf.stages s = some n) : InvO sf (n : Int) := by
  refine Or.inr ⟨Int.natCast_nonneg n, ?_, ?_⟩
  · rw [Int.toNat_natCast]
    exact lastIndexOf_lt_length h
  · rw [Int.toNat_natCast, pyGetStages_nonneg (Int.natCast_nonneg n), Int.toNat_natCast,
      lastIndexOf_getD h]
    exact h

theorem stageIndicesGet_none (st : List String) (d : Int) :
    stageIndicesGet st none d = d := rfl

theorem stageIndicesGet_found {st : List String} {s : String} {i : Nat}
    (hr : lastIndexOf st s = some i) (d : Int) :
    stageIndicesGet st (some s) d = (i : Int) := by
  simp [stageIndicesGet, hr]

theorem stageIndicesGet_not_found {st : List String} {s : String}
    (hr : lastIndexOf st s = none) (d : Int) :
    stageIndicesGet st (some s) d = d := by
  simp [stageIndicesGet, hr]

theorem neg_one_le_posOf (sf : StageField) (p : Page) : -1 ≤ posOf sf p := by
  unfold posOf
  cases hl : p.label with
  | none => rw [stageIndicesGet_none]
  | some s =>
    cases hr : lastIndexOf sf.stages s with
    | none => rw [stageIndicesGet_not_found hr]
    | some i => rw [stageIndicesGet_found hr]; omega

theorem posOf_lt_length (sf : StageField) (p : Page) :
    posOf sf p < (sf.stages.length : Int) := by
  unfold posOf
  cases hl : p.label with
  | none => rw [stageIndicesGet_none]; omega
  | some s =>
    cases hr : lastIndexOf sf.stages s with
    | none => rw [stageIndicesGet_not_found hr]; omega
    | some i =>
      rw [stageIndicesGet_found hr]
      have := lastIndexOf_lt_length hr
      omega

theorem posOf_nonneg_elim {sf : StageField} {p : Page} (h : 0 ≤ posOf sf p) :
    ∃ s n, p.label = some s ∧ lastIndexOf sf.stages s = some n ∧ posOf sf p = (n : Int) := by
  unfold posOf at h ⊢
  cases hl : p.label with
  | none => rw [hl, stageIndicesGet_none] at h; omega
  | some s =>
    rw [hl] at h
    cases hr : lastIndexOf sf.stages s with
    | none => rw [stageIndicesGet_not_found hr] at h; omega
    | some n => exact ⟨s, n, rfl, hr, stageIndicesGet_found hr _⟩

theorem posOf_of_label_mem {sf : StageField} {p : Page} {s : String}
    (hl : p.label = some s) (hm : s ∈ sf.stages) : 0 ≤ posOf sf p := by
  unfold posOf
  rw [hl]
  have hs := lastIndexOf_isSome_of_mem hm
  cases hr : lastIndexOf sf.stages s with
  | none => rw [hr] at hs; simp at hs
  | some n => rw [stageIndicesGet_found hr]; omega

theorem colorsFind_exists_mem {cs : List (String × Color)} {s : String} {c : Color}
    (h : colorsFind cs s = some c) : ∃ kv ∈ cs, kv.1 = s ∧ kv.2 = c := by
  unfold colorsFind at h
  cases hf : cs.reverse.find? (fun kv => decide (kv.1 = s)) with
  | none => rw [hf] at h; simp at h
  | some kv =>
    rw [hf] at h
    simp only [Option.map_some', Option.some.injEq] at h
    have hm := List.mem_reverse.mp (List.mem_of_find?_eq_some hf)
    have hp := List.find?_some hf
    simp only [decide_eq_true_eq] at hp
    exact ⟨kv, hm, hp, h⟩

theorem colorsFind_isSome_of_complete {sf : StageField} {s : String}
    (hc : colorKeysComplete sf = true) (hm : s ∈ sf.stages) :
    (colorsFind sf.colors s).isSome = true :=
  List.all_eq_true.mp hc s hm

theorem mem_stages_of_colorsFind {sf : StageField} {s : String}
    (hv : colorKeysValid sf = true) (h : (colorsFind sf.colors s).isSome = true) :
    s ∈ sf.stages := by
  cases hf : colorsFind sf.colors s with
  | none => rw [hf] at h; simp at h
  | some c =>
    obtain ⟨kv, hm, hk, _⟩ := colorsFind_exists_mem hf
    have := List.all_eq_true.mp hv kv hm
    simp only [decide_eq_true_eq] at this
    rwa [hk] at this

theorem setPageColor_none_label {sf : StageField} {p : Page} (h : p.label = none) :
    setPageColor sf p = some { p with color := none } := by
  unfold setPageColor
  rw [h]

theorem setPageColor_map {sf : StageField} {p : Page} {s : String} (h : p.label = some s) :
    setPageColor sf p = (colorsFind sf.colors s).map (fun c => { p with color := some c }) := by
  unfold setPageColor
  rw [h]

theorem setPageColor_label_eq {sf : StageField} {p q : Page}
    (h : setPageColor sf p = some q) : q.label = p.label := by
  cases hl : p.label with
  | none =>
    rw [setPageColor_none_label hl] at h
    simp only [Option.some.injEq] at h
    rw [← h]
    exact hl
  | some s =>
    rw [setPageColor_map hl] at h
    cases hf : colorsFind sf.colors s with
    | none => rw [hf] at h; simp at h
    | some c =>
      rw [hf] at h
      simp only [Option.map_some', Option.some.injEq] at h
      rw [← h]
      exact hl

theorem setPageColor_isSome_of_ok {sf : StageField} {p : Page}
    (hp : pageLabelOk sf p = true) (hc : colorKeysComplete sf = true) :
    (setPageColor sf p).isSome = true := by
  cases hl : p.label with
  | none => rw [setPageColor_none_label hl]; rfl
  | some s =>
    unfold pageLabelOk at hp
    rw [hl] at hp
    simp only [decide_eq_true_eq] at hp
    have hs := colorsFind_isSome_of_complete hc hp
    rw [setPageColor_map hl]
    cases hf : colorsFind sf.colors s with
    | none => rw [hf] at hs; simp at hs
    | some c => rfl

theorem mem_stages_of_setPageColor {sf : StageField} {p : Page} {s : String}
    (hl : p.label = some s) (hv : colorKeysValid sf = true)
    (h : (setPageColor sf p).isSome = true) : s ∈ sf.stages := by
  rw [setPageColor_map hl] at h
  cases hf : colorsFind sf.colors s with
  | none => rw [hf] at h; simp at h
  | some c => exact mem_stages_of_colorsFind hv (by rw [hf]; rfl)

theorem forwardLoop_nil (sf : StageField) (o : Int) : forwardLoop sf o [] = ([], none) := rfl

theorem forwardLoop_cons_gt {sf : StageField} {o : Int} {p : Page} (rest : List Page) {p2 : Page}
    (h : o < stageIndicesGet sf.stages p.label (-1))
    (hc : setPageColor sf p = some p2) :
    forwardLoop sf o (p :: rest) =
      (p2 :: (forwardLoop sf (stageIndicesGet sf.stages p.label (-1)) rest).1,
       (forwardLoop sf (stageIndicesGet sf.stages p.label (-1)) rest).2) := by
  simp only [forwardLoop, gt_iff_lt, if_pos h, hc]

theorem forwardLoop_cons_gt_err {sf : StageField} {o : Int} {p : Page} (rest : List Page)
    (h : o < stageIndicesGet sf.stages p.label (-1))
    (hc : setPageColor sf p = none) :
    forwardLoop sf o (p :: rest) = (p :: rest, some "KeyError") := by
  simp only [forwardLoop, gt_iff_lt, if_pos h, hc]

theorem forwardLoop_cons_lt {sf : StageField} {o : Int} {p : Page} (rest : List Page) {p2 : Page}
    (h : stageIndicesGet sf.stages p.label (-1) < o)
    (hc : setPageColor sf { p with label := some (pyGetStages sf.stages o) } = some p2) :
    forwardLoop sf o (p :: rest) =
      (p2 :: (forwardLoop sf o rest).1, (forwardLoop sf o rest).2) := by
  simp only [forwardLoop, gt_iff_lt,
    if_neg (by omega : ¬ o < stageIndicesGet sf.stages p.label (-1)), if_pos h, hc]

theorem forwardLoop_cons_lt_err {sf : StageField} {o : Int} {p : Page} (rest : List Page)
    (h : stageIndicesGet sf.stages p.label (-1) < o)
    (hc : setPageColor sf { p with label := some (pyGetStages sf.stages o) } = none) :
    forwardLoop sf o (p :: rest) =
      ({ p with label := some (pyGetStages sf.stages o) } :: rest, some "KeyError") := by
  simp only [forwardLoop, gt_iff_lt,
    if_neg (by omega : ¬ o < stageIndicesGet sf.stages p.label (-1)), if_pos h, hc]

theorem forwardLoop_cons_eq {sf : StageField} {o : Int} {p : Page} (rest : List Page) {p2 : Page}
    (h : stageIndicesGet sf.stages p.label (-1) = o)
    (hc : setPageColor sf p = some p2) :
    forwardLoop sf o (p :: rest) =
      (p2 :: (forwardLoop sf o rest).1, (forwardLoop sf o rest).2) := by
  simp only [forwardLoop, gt_iff_lt,
    if_neg (by omega : ¬ o < stageIndicesGet sf.stages p.label (-1)),
    if_neg (by omega : ¬ stageIndicesGet sf.stages p.label (-1) < o), hc]

theorem forwardLoop_cons_eq_err {sf : StageField} {o : Int} {p : Page} (rest : List Page)
    (h : stageIndicesGet sf.stages p.label (-1) = o)
    (hc : setPageColor sf p = none) :
    forwardLoop sf o (p :: rest) = (p :: rest, some "KeyError") := by
  simp only [forwardLoop, gt_iff_lt,
    if_neg (by omega : ¬ o < stageIndicesGet sf.stages p.label (-1)),
    if_neg (by omega : ¬ stageIndicesGet sf.stages p.label (-1) < o), hc]

theorem pageLabelOk_of_label_eq {sf : StageField} {p q : Page} (h : q.label = p.label) :
    pageLabelOk sf q = pageLabelOk sf p := by
  unfold pageLabelOk
  rw [h]

theorem posOf_of_label_eq {sf : StageField} {p q : Page} (h : q.label = p.label) :
    posOf sf q = posOf sf p := by
  unfold posOf
  rw [h]

theorem pageLabelOk_of_mem {sf : StageField} {p : Page} {s : String}
    (hl : p.label = some s) (hm : s ∈ sf.stages) : pageLabelOk sf p = true := by
  unfold pageLabelOk
  rw [hl]
  simpa using hm

theorem InvO_neg_one_le {sf : StageField} {o : Int} (h : InvO sf o) : -1 ≤ o := by
  rcases h with h | ⟨h0, _, _⟩ <;> omega

theorem InvO_lt_length {sf : StageField} {o : Int} (h : InvO sf o) :
    o < (sf.stages.length : Int) := by
  rcases h with h | ⟨h0, hlt, _⟩ <;> omega

theorem InvO_elim_pos {sf : StageField} {o : Int} (h : InvO sf o) (h0 : 0 ≤ o) :
    o.toNat < sf.stages.length ∧
      lastIndexOf sf.stages (pyGetStages sf.stages o) = some o.toNat := by
  rcases h with h | ⟨_, hlt, hfix⟩
  · omega
  · exact ⟨hlt, hfix⟩

theorem InvO_of_posOf_nonneg {sf : StageField} {p : Page} (h : 0 ≤ posOf sf p) :
    InvO sf (posOf sf p) := by
  obtain ⟨s, n, _, hr, hpos⟩ := posOf_nonneg_elim h
  rw [hpos]
  exact InvO_of_lastIndexOf hr

theorem posOf_stamped {sf : StageField} {o : Int} (h : InvO sf o) (h0 : 0 ≤ o) (p : Page) :
    posOf sf { p with label := some (pyGetStages sf.stages o) } = o := by
  obtain ⟨_, hfix⟩ := InvO_elim_pos h h0
  unfold posOf
  rw [stageIndicesGet_found hfix]
  omega

theorem pageLabelOk_stamped {sf : StageField} {o : Int} (h : InvO sf o) (h0 : 0 ≤ o) (p : Page) :
    pageLabelOk sf { p with label := some (pyGetStages sf.stages o) } = true := by
  obtain ⟨hlt, _⟩ := InvO_elim_pos h h0
  unfold pageLabelOk
  simpa using pyGetStages_mem h0 hlt

theorem forwardLoop_length (sf : StageField) (o : Int) (pages : List Page) :
    (forwardLoop sf o pages).1.length = pages.length := by
  induction pages generalizing o with
  | nil => simp [forwardLoop_nil]
  | cons p rest ih =>
    rcases lt_trichotomy o (stageIndicesGet sf.stages p.label (-1)) with hlt | heq | hgt
    · cases hc : setPageColor sf p with
      | none => rw [forwardLoop_cons_gt_err rest hlt hc]
      | some p2 => rw [forwardLoop_cons_gt rest hlt hc]; simp [ih]
    · cases hc : setPageColor sf p with
      | none => rw [forwardLoop_cons_eq_err rest heq.symm hc]
      | some p2 => rw [forwardLoop_cons_eq rest heq.symm hc]; simp [ih]
    · cases hc : setPageColor sf { p with label := some (pyGetStages sf.stages o) } with
      | none => rw [forwardLoop_cons_lt_err rest hgt hc]; simp
      | some p2 => rw [forwardLoop_cons_lt rest hgt hc]; simp [ih]

theorem update_widget_length (sf : StageField) (value : Option String) (pages : List Page) :
    (update_widget sf value pages).1.length = pages.length := by
  unfold update_widget
  cases value with
  | none => exact forwardLoop_length sf (-1) pages
  | some v =>
    by_cases hv : v ∈ sf.stages
    · simp only [if_pos hv]
      exact forwardLoop_length sf (-1) pages
    · simp [if_neg hv]

theorem backwardLoop_length (sf : StageField) (y : Int) (pages : List Page) (n : Nat) :
    (backwardLoop sf y pages n).length = pages.length := by
  induction n generalizing y pages with
  | zero => rfl
  | succ m ih =>
    unfold backwardLoop
    by_cases h : stageIndicesGet sf.stages (pages.getD m default).label (sf.stages.length : Int)
        < y
    · rw [if_pos h, ih]
    · rw [if_neg h, ih, List.length_set]

theorem set_stage_length (sf : StageField) (pages : List Page) (fb_i : Nat) (stage : String) :
    (set_stage sf pages fb_i stage).1.length = pages.length := by
  unfold set_stage
  cases hr : lastIndexOf sf.stages stage with
  | none => simp
  | some idx =>
    by_cases hfb : 0 < fb_i
    · simp only [if_pos hfb]
      rw [update_widget_length, backwardLoop_length, List.length_set]
    · simp only [if_neg hfb]
      rw [update_widget_length, List.length_set]

theorem forwardLoop_wf {sf : StageField} (hcom : colorKeysComplete sf = true) :
    ∀ (pages : List Page) (o : Int), InvO sf o →
      (∀ p ∈ pages, pageLabelOk sf p = true) →
      (forwardLoop sf o pages).2 = none
      ∧ (∀ p ∈ (forwardLoop sf o pages).1, pageLabelOk sf p = true)
      ∧ List.Pairwise (fun p q => posOf sf p ≤ posOf sf q) (forwardLoop sf o pages).1
      ∧ (∀ p ∈ (forwardLoop sf o pages).1, o ≤ posOf sf p) := by
  intro pages
  induction pages with
  | nil =>
    intro o _ _
    refine ⟨rfl, by simp [forwardLoop_nil], by simp [forwardLoop_nil], by simp [forwardLoop_nil]⟩
  | cons p rest ih =>
    intro o hInv hok
    have hokp : pageLabelOk sf p = true := hok p (List.mem_cons_self p rest)
    have hokr : ∀ q ∈ rest, pageLabelOk sf q = true :=
      fun q hq => hok q (List.mem_cons_of_mem p hq)
    have hneg : -1 ≤ stageIndicesGet sf.stages p.label (-1) := neg_one_le_posOf sf p
    rcases lt_trichotomy o (stageIndicesGet sf.stages p.label (-1)) with hlt | heq | hgt
    · obtain ⟨p2, hp2⟩ := Option.isSome_iff_exists.mp (setPageColor_isSome_of_ok hokp hcom)
      rw [forwardLoop_cons_gt rest hlt hp2]
      have hpos2 : posOf sf p2 = stageIndicesGet sf.stages p.label (-1) :=
        posOf_of_label_eq (setPageColor_label_eq hp2)
      have h0i : (0 : Int) ≤ stageIndicesGet sf.stages p.label (-1) := by
        have := InvO_neg_one_le hInv
        omega
      have hInvI : InvO sf (stageIndicesGet sf.stages p.label (-1)) :=
        @InvO_of_posOf_nonneg sf p h0i
      obtain ⟨e1, e2, e3, e4⟩ := ih (stageIndicesGet sf.stages p.label (-1)) hInvI hokr
      refine ⟨e1, ?_, ?_, ?_⟩
      · intro q hq
        rcases List.mem_cons.mp hq with h | h
        · rw [h, pageLabelOk_of_label_eq (setPageColor_label_eq hp2)]
          exact hokp
        · exact e2 q h
      · rw [List.pairwise_cons]
        exact ⟨fun q hq => by rw [hpos2]; exact e4 q hq, e3⟩
      · intro q hq
        rcases List.mem_cons.mp hq with h | h
        · rw [h, hpos2]; omega
        · have := e4 q h; omega
    · obtain ⟨p2, hp2⟩ := Option.isSome_iff_exists.mp (setPageColor_isSome_of_ok hokp hcom)
      rw [forwardLoop_cons_eq rest heq.symm hp2]
      have hpos2 : posOf sf p2 = o := by
        rw [posOf_of_label_eq (setPageColor_label_eq hp2)]
        exact heq.symm
      obtain ⟨e1, e2, e3, e4⟩ := ih o hInv hokr
      refine ⟨e1, ?_, ?_, ?_⟩
      · intro q hq
        rcases List.mem_cons.mp hq with h | h
        · rw [h, pageLabelOk_of_label_eq (setPageColor_label_eq hp2)]
          exact hokp
        · exact e2 q h
      · rw [List.pairwise_cons]
        exact ⟨fun q hq => by rw [hpos2]; exact e4 q hq, e3⟩
      · intro q hq
        rcases List.mem_cons.mp hq with h | h
        · rw [h, hpos2]
        · exact e4 q h
    · have h0o : (0 : Int) ≤ o := by omega
      have hok1 : pageLabelOk sf { p with label := some (pyGetStages sf.stages o) } = true :=
        pageLabelOk_stamped hInv h0o p
      obtain ⟨p2, hp2⟩ := Option.isSome_iff_exists.mp (setPageColor_isSome_of_ok hok1 hcom)
      rw [forwardLoop_cons_lt rest hgt hp2]
      have hpos2 : posOf sf p2 = o := by
        rw [posOf_of_label_eq (setPageColor_label_eq hp2)]
        exact posOf_stamped hInv h0o p
      obtain ⟨e1, e2, e3, e4⟩ := ih o hInv hokr
      refine ⟨e1, ?_, ?_, ?_⟩
      · intro q hq
        rcases List.mem_cons.mp hq with h | h
        · rw [h, pageLabelOk_of_label_eq (setPageColor_label_eq hp2)]
          exact hok1
        · exact e2 q h
      · rw [List.pairwise_cons]
        exact ⟨fun q hq => by rw [hpos2]; exact e4 q hq, e3⟩
      · intro q hq
        rcases List.mem_cons.mp hq with h | h
        · rw [h, hpos2]
        · exact e4 q h


theorem setPageColor_isSome_congr {sf : StageField} {p q : Page} (h : p.label = q.label) :
    (setPageColor sf p).isSome = (setPageColor sf q).isSome := by
  cases hl : p.label with
  | none => rw [setPageColor_none_label hl, setPageColor_none_label (h ▸ hl)]; rfl
  | some s =>
    rw [setPageColor_map hl, setPageColor_map (h ▸ hl)]
    cases colorsFind sf.colors s <;> rfl

theorem forwardLoop_sorted {sf : StageField} (hv : colorKeysValid sf = true) :
    ∀ (pages pages' : List Page) (o : Int), InvO sf o →
      forwardLoop sf o pages = (pages', none) →
      List.Pairwise (fun p q => posOf sf p ≤ posOf sf q) pages'
      ∧ (∀ p ∈ pages', o ≤ posOf sf p)
      ∧ (∀ p ∈ pages', p.label.isSome = true → 0 ≤ posOf sf p) := by
  intro pages
  induction pages with
  | nil =>
    intro pages' o _ h
    rw [forwardLoop_nil] at h
    simp only [Prod.mk.injEq] at h
    rw [← h.1]
    simp
  | cons p rest ih =>
    intro pages' o hInv h
    have hneg : -1 ≤ stageIndicesGet sf.stages p.label (-1) := neg_one_le_posOf sf p
    rcases lt_trichotomy o (stageIndicesGet sf.stages p.label (-1)) with hlt | heq | hgt
    · cases hc : setPageColor sf p with
      | none =>
        rw [forwardLoop_cons_gt_err rest hlt hc] at h
        simp only [Prod.mk.injEq] at h
        exact absurd h.2 (by simp)
      | some p2 =>
        rw [forwardLoop_cons_gt rest hlt hc] at h
        simp only [Prod.mk.injEq] at h
        obtain ⟨h1, h2⟩ := h
        have h0i : (0 : Int) ≤ stageIndicesGet sf.stages p.label (-1) := by
          have := InvO_neg_one_le hInv
          omega
        have hInvI : InvO sf (stageIndicesGet sf.stages p.label (-1)) :=
          @InvO_of_posOf_nonneg sf p h0i
        have hfr : forwardLoop sf (stageIndicesGet sf.stages p.label (-1)) rest
            = ((forwardLoop sf (stageIndicesGet sf.stages p.label (-1)) rest).1, none) := by
          rw [← h2]
        obtain ⟨e1, e2, e3⟩ := ih _ _ hInvI hfr
        have hpos2 : posOf sf p2 = stageIndicesGet sf.stages p.label (-1) :=
          posOf_of_label_eq (setPageColor_label_eq hc)
        rw [← h1]
        refine ⟨?_, ?_, ?_⟩
        · rw [List.pairwise_cons]
          exact ⟨fun q hq => by rw [hpos2]; exact e2 q hq, e1⟩
        · intro q hq
          rcases List.mem_cons.mp hq with hh | hh
          · rw [hh, hpos2]; omega
          · have := e2 q hh; omega
        · intro q hq hqs
          rcases List.mem_cons.mp hq with hh | hh
          · rw [hh, hpos2]; omega
          · exact e3 q hh hqs
    · cases hc : setPageColor sf p with
      | none =>
        rw [forwardLoop_cons_eq_err rest heq.symm hc] at h
        simp only [Prod.mk.injEq] at h
        exact absurd h.2 (by simp)
      | some p2 =>
        rw [forwardLoop_cons_eq rest heq.symm hc] at h
        simp only [Prod.mk.injEq] at h
        obtain ⟨h1, h2⟩ := h
        have hfr : forwardLoop sf o rest = ((forwardLoop sf o rest).1, none) := by
          rw [← h2]
        obtain ⟨e1, e2, e3⟩ := ih _ _ hInv hfr
        have hpos2 : posOf sf p2 = o := by
          rw [posOf_of_label_eq (setPageColor_label_eq hc)]
          exact heq.symm
        rw [← h1]
        refine ⟨?_, ?_, ?_⟩
        · rw [List.pairwise_cons]
          exact ⟨fun q hq => by rw [hpos2]; exact e2 q hq, e1⟩
        · intro q hq
          rcases List.mem_cons.mp hq with hh | hh
          · rw [hh, hpos2]
          · exact e2 q hh
        · intro q hq hqs
          rcases List.mem_cons.mp hq with hh | hh
          · subst hh
            have hlab : q.label = p.label := setPageColor_label_eq hc
            cases hl : p.label with
            | none => rw [hlab, hl] at hqs; simp at hqs
            | some s =>
              have hmem : s ∈ sf.stages :=
                mem_stages_of_setPageColor hl hv (by rw [hc]; rfl)
              have := posOf_of_label_mem hl hmem
              rw [posOf_of_label_eq hlab]
              exact this
          · exact e3 q hh hqs
    · cases hc : setPageColor sf { p with label := some (pyGetStages sf.stages o) } with
      | none =>
        rw [forwardLoop_cons_lt_err rest hgt hc] at h
        simp only [Prod.mk.injEq] at h
        exact absurd h.2 (by simp)
      | some p2 =>
        rw [forwardLoop_cons_lt rest hgt hc] at h
        simp only [Prod.mk.injEq] at h
        obtain ⟨h1, h2⟩ := h
        have h0o : (0 : Int) ≤ o := by omega
        have hfr : forwardLoop sf o rest = ((forwardLoop sf o rest).1, none) := by
          rw [← h2]
        obtain ⟨e1, e2, e3⟩ := ih _ _ hInv hfr
        have hpos2 : posOf sf p2 = o := by
          rw [posOf_of_label_eq (setPageColor_label_eq hc)]
          exact posOf_stamped hInv h0o p
        rw [← h1]
        refine ⟨?_, ?_, ?_⟩
        · rw [List.pairwise_cons]
          exact ⟨fun q hq => by rw [hpos2]; exact e2 q hq, e1⟩
        · intro q hq
          rcases List.mem_cons.mp hq with hh | hh
          · rw [hh, hpos2]
          · exact e2 q hh
        · intro q hq hqs
          rcases List.mem_cons.mp hq with hh | hh
          · rw [hh, hpos2]; omega
          · exact e3 q hh hqs

theorem forwardLoop_congr {sf : StageField} :
    ∀ (ps qs : List Page) (o : Int), ps.map Page.label = qs.map Page.label →
      (forwardLoop sf o ps).1.map Page.label = (forwardLoop sf o qs).1.map Page.label
      ∧ (forwardLoop sf o ps).2 = (forwardLoop sf o qs).2 := by
  intro ps
  induction ps with
  | nil =>
    intro qs o h
    cases qs with
    | nil => exact ⟨rfl, rfl⟩
    | cons q qs => simp at h
  | cons p ps ih =>
    intro qs o h
    cases qs with
    | nil => simp at h
    | cons q qs =>
      simp only [List.map_cons, List.cons.injEq] at h
      obtain ⟨hpq, hrest⟩ := h
      have hi : stageIndicesGet sf.stages p.label (-1)
          = stageIndicesGet sf.stages q.label (-1) := by rw [hpq]
      rcases lt_trichotomy o (stageIndicesGet sf.stages p.label (-1)) with hlt | heq | hgt
      · have hlt2 : o < stageIndicesGet sf.stages q.label (-1) := by omega
        cases hc : setPageColor sf p with
        | none =>
          have hcq : setPageColor sf q = none := by
            have hs := @setPageColor_isSome_congr sf _ _ hpq
            rw [hc] at hs
            cases hq : setPageColor sf q with
            | none => rfl
            | some q2 => rw [hq] at hs; simp at hs
          rw [forwardLoop_cons_gt_err ps hlt hc, forwardLoop_cons_gt_err qs hlt2 hcq]
          exact ⟨by simp [hpq, hrest], rfl⟩
        | some p2 =>
          have hsq : (setPageColor sf q).isSome = true := by
            rw [← @setPageColor_isSome_congr sf _ _ hpq, hc]
            rfl
          obtain ⟨q2, hcq⟩ := Option.isSome_iff_exists.mp hsq
          have hl2 : p2.label = q2.label := by
            rw [setPageColor_label_eq hc, setPageColor_label_eq hcq, hpq]
          rw [forwardLoop_cons_gt ps hlt hc, forwardLoop_cons_gt qs hlt2 hcq, ← hi]
          obtain ⟨ih1, ih2⟩ := ih qs (stageIndicesGet sf.stages p.label (-1)) hrest
          exact ⟨by simp only [List.map_cons]; rw [hl2, ih1], ih2⟩
      · have heq2 : stageIndicesGet sf.stages q.label (-1) = o := by omega
        cases hc : setPageColor sf p with
        | none =>
          have hcq : setPageColor sf q = none := by
            have hs := @setPageColor_isSome_congr sf _ _ hpq
            rw [hc] at hs
            cases hq : setPageColor sf q with
            | none => rfl
            | some q2 => rw [hq] at hs; simp at hs
          rw [forwardLoop_cons_eq_err ps heq.symm hc, forwardLoop_cons_eq_err qs heq2 hcq]
          exact ⟨by simp [hpq, hrest], rfl⟩
        | some p2 =>
          have hsq : (setPageColor sf q).isSome = true := by
            rw [← @setPageColor_isSome_congr sf _ _ hpq, hc]
            rfl
          obtain ⟨q2, hcq⟩ := Option.isSome_iff_exists.mp hsq
          have hl2 : p2.label = q2.label := by
            rw [setPageColor_label_eq hc, setPageColor_label_eq hcq, hpq]
          rw [forwardLoop_cons_eq ps heq.symm hc, forwardLoop_cons_eq qs heq2 hcq]
          obtain ⟨ih1, ih2⟩ := ih qs o hrest
          exact ⟨by simp only [List.map_cons]; rw [hl2, ih1], ih2⟩
      · have hgt2 : stageIndicesGet sf.stages q.label (-1) < o := by omega
        have hstamp : ({ p with label := some (pyGetStages sf.stages o) } : Page).label
            = ({ q with label := some (pyGetStages sf.stages o) } : Page).label := rfl
        cases hc : setPageColor sf { p with label := some (pyGetStages sf.stages o) } with
        | none =>
          have hcq : setPageColor sf { q with label := some (pyGetStages sf.stages o) }
              = none := by
            have hs := @setPageColor_isSome_congr sf _ _ hstamp
            rw [hc] at hs
            cases hq : setPageColor sf { q with label := some (pyGetStages sf.stages o) } with
            | none => rfl
            | some q2 => rw [hq] at hs; simp at hs
          rw [forwardLoop_cons_lt_err ps hgt hc, forwardLoop_cons_lt_err qs hgt2 hcq]
          exact ⟨by simp [hrest], rfl⟩
        | some p2 =>
          have hsq : (setPageColor sf { q with label := some (pyGetStages sf.stages o) }).isSome
              = true := by
            rw [← @setPageColor_isSome_congr sf _ _ hstamp, hc]
            rfl
          obtain ⟨q2, hcq⟩ := Option.isSome_iff_exists.mp hsq
          have hl2 : p2.label = q2.label := by
            rw [setPageColor_label_eq hc, setPageColor_label_eq hcq]
          rw [forwardLoop_cons_lt ps hgt hc, forwardLoop_cons_lt qs hgt2 hcq]
          obtain ⟨ih1, ih2⟩ := ih qs o hrest
          exact ⟨by simp only [List.map_cons]; rw [hl2, ih1], ih2⟩

theorem forwardLoop_stable {sf : StageField} :
    ∀ (pages : List Page) (o : Int),
      List.Pairwise (fun p q => posOf sf p ≤ posOf sf q) pages →
      (∀ p ∈ pages, o ≤ posOf sf p) →
      (forwardLoop sf o pages).1.map Page.label = pages.map Page.label := by
  intro pages
  induction pages with
  | nil => intro o _ _; rw [forwardLoop_nil]
  | cons p rest ih =>
    intro o hpw hbd
    have hbp : o ≤ posOf sf p := hbd p (List.mem_cons_self p rest)
    rw [List.pairwise_cons] at hpw
    obtain ⟨hhead, hrest⟩ := hpw
    rcases eq_or_lt_of_le hbp with heq | hlt
    · cases hc : setPageColor sf p with
      | none => rw [forwardLoop_cons_eq_err rest heq.symm hc]
      | some p2 =>
        rw [forwardLoop_cons_eq rest heq.symm hc]
        simp only [List.map_cons]
        rw [setPageColor_label_eq hc,
          ih o hrest (fun q hq => hbd q (List.mem_cons_of_mem p hq))]
    · cases hc : setPageColor sf p with
      | none => rw [forwardLoop_cons_gt_err rest hlt hc]
      | some p2 =>
        rw [forwardLoop_cons_gt rest hlt hc]
        simp only [List.map_cons]
        rw [setPageColor_label_eq hc,
          ih (stageIndicesGet sf.stages p.label (-1)) hrest hhead]

theorem forwardLoop_pos_noerr {sf : StageField} (hcom : colorKeysComplete sf = true) :
    ∀ (pages : List Page) (o : Int), InvO sf o → 0 ≤ o →
      (forwardLoop sf o pages).2 = none := by
  intro pages
  induction pages with
  | nil => intro o _ _; rw [forwardLoop_nil]
  | cons p rest ih =>
    intro o hInv h0
    rcases lt_trichotomy o (stageIndicesGet sf.stages p.label (-1)) with hlt | heq | hgt
    · have h0i : (0 : Int) ≤ stageIndicesGet sf.stages p.label (-1) := by omega
      obtain ⟨s, n, hl, hr, hpos⟩ := @posOf_nonneg_elim sf p h0i
      have hokp : pageLabelOk sf p = true := pageLabelOk_of_mem hl (lastIndexOf_mem hr)
      obtain ⟨p2, hp2⟩ := Option.isSome_iff_exists.mp (setPageColor_isSome_of_ok hokp hcom)
      rw [forwardLoop_cons_gt rest hlt hp2]
      exact ih _ (@InvO_of_posOf_nonneg sf p h0i) h0i
    · have h0i : (0 : Int) ≤ stageIndicesGet sf.stages p.label (-1) := by omega
      obtain ⟨s, n, hl, hr, hpos⟩ := @posOf_nonneg_elim sf p h0i
      have hokp : pageLabelOk sf p = true := pageLabelOk_of_mem hl (lastIndexOf_mem hr)
      obtain ⟨p2, hp2⟩ := Option.isSome_iff_exists.mp (setPageColor_isSome_of_ok hokp hcom)
      rw [forwardLoop_cons_eq rest heq.symm hp2]
      exact ih o hInv h0
    · have hok1 := pageLabelOk_stamped hInv h0 p
      obtain ⟨p2, hp2⟩ := Option.isSome_iff_exists.mp (setPageColor_isSome_of_ok hok1 hcom)
      rw [forwardLoop_cons_lt rest hgt hp2]
      exact ih o hInv h0

theorem forwardLoop_err_labels {sf : StageField} (hcom : colorKeysComplete sf = true) :
    ∀ (pages : List Page) (o : Int), InvO sf o →
      (forwardLoop sf o pages).2.isSome = true →
      (forwardLoop sf o pages).1.map Page.label = pages.map Page.label := by
  intro pages
  induction pages with
  | nil => intro o _ _; rw [forwardLoop_nil]
  | cons p rest ih =>
    intro o hInv herr
    by_cases h0 : 0 ≤ o
    · rw [forwardLoop_pos_noerr hcom (p :: rest) o hInv h0] at herr
      simp at herr
    · have ho : o = -1 := by
        have := InvO_neg_one_le hInv
        omega
      subst ho
      have hneg : -1 ≤ stageIndicesGet sf.stages p.label (-1) := neg_one_le_posOf sf p
      rcases lt_or_eq_of_le hneg with hlt | heqi
      · have h0i : (0 : Int) ≤ stageIndicesGet sf.stages p.label (-1) := by omega
        obtain ⟨s, n, hl, hr, hpos⟩ := @posOf_nonneg_elim sf p h0i
        have hokp : pageLabelOk sf p = true := pageLabelOk_of_mem hl (lastIndexOf_mem hr)
        obtain ⟨p2, hp2⟩ := Option.isSome_iff_exists.mp (setPageColor_isSome_of_ok hokp hcom)
        rw [forwardLoop_cons_gt rest hlt hp2] at herr
        rw [forwardLoop_pos_noerr hcom rest (stageIndicesGet sf.stages p.label (-1))
          (@InvO_of_posOf_nonneg sf p h0i) h0i] at herr
        simp at herr
      · cases hc : setPageColor sf p with
        | none => rw [forwardLoop_cons_eq_err rest heqi.symm hc]
        | some p2 =>
          rw [forwardLoop_cons_eq rest heqi.symm hc] at herr ⊢
          simp only [List.map_cons]
          rw [setPageColor_label_eq hc, ih (-1) (InvO_neg1 sf) herr]

theorem forwardLoop_unset_run {sf : StageField} :
    ∀ (l1 rest : List Page), (∀ q ∈ l1, q.label = none) →
      forwardLoop sf (-1) (l1 ++ rest)
        = ((l1.map fun q => { q with color := none }) ++ (forwardLoop sf (-1) rest).1,
           (forwardLoop sf (-1) rest).2) := by
  intro l1
  induction l1 with
  | nil => intro rest _; rfl
  | cons q l1 ih =>
    intro rest hun
    have hq : q.label = none := hun q (List.mem_cons_self q l1)
    have hi : stageIndicesGet sf.stages q.label (-1) = -1 := by rw [hq]; rfl
    rw [List.cons_append,
      forwardLoop_cons_eq (l1 ++ rest) hi (setPageColor_none_label hq),
      ih rest (fun r hr => hun r (List.mem_cons_of_mem q hr))]
    simp

theorem le_foldl_max (sf : StageField) :
    ∀ (l : List Page) (a : Int), a ≤ l.foldl (fun x p => max x (posOf sf p)) a := by
  intro l
  induction l with
  | nil => intro a; simp
  | cons p l ih =>
    intro a
    rw [List.foldl_cons]
    have := ih (max a (posOf sf p))
    have hle : a ≤ max a (posOf sf p) := le_max_left _ _
    omega

theorem foldl_max_ge_mem (sf : StageField) :
    ∀ (l : List Page) (a : Int) (q : Page), q ∈ l →
      posOf sf q ≤ l.foldl (fun x p => max x (posOf sf p)) a := by
  intro l
  induction l with
  | nil => intro a q hq; simp at hq
  | cons p l ih =>
    intro a q hq
    rw [List.foldl_cons]
    rcases List.mem_cons.mp hq with h | h
    · subst h
      have h1 : posOf sf q ≤ max a (posOf sf q) := le_max_right _ _
      have h2 := le_foldl_max sf l (max a (posOf sf q))
      omega
    · exact ih (max a (posOf sf p)) q h

theorem forwardLoop_stamp {sf : StageField} (hcom : colorKeysComplete sf = true) :
    ∀ (pages : List Page) (o : Int) (k : Nat), InvO sf o →
      (∀ p ∈ pages, pageLabelOk sf p = true) →
      k < pages.length →
      (pages.getD k default).label = none →
      0 ≤ (pages.take k).foldl (fun a p => max a (posOf sf p)) o →
      ((forwardLoop sf o pages).1.getD k default).label
        = some (pyGetStages sf.stages
            ((pages.take k).foldl (fun a p => max a (posOf sf p)) o)) := by
  intro pages
  induction pages with
  | nil => intro o k _ _ hk _ _; simp at hk
  | cons p rest ih =>
    intro o k hInv hok hk hunset hfold
    have hokp := hok p (List.mem_cons_self p rest)
    have hokr : ∀ q ∈ rest, pageLabelOk sf q = true :=
      fun q hq => hok q (List.mem_cons_of_mem p hq)
    have hip : posOf sf p = stageIndicesGet sf.stages p.label (-1) := rfl
    cases k with
    | zero =>
      simp only [List.take_zero, List.foldl_nil] at hfold ⊢
      have hq : p.label = none := by simpa using hunset
      have hgt : stageIndicesGet sf.stages p.label (-1) < o := by
        rw [hq]
        simpa [stageIndicesGet_none] using hfold
      have hok1 := pageLabelOk_stamped hInv hfold p
      obtain ⟨p2, hp2⟩ := Option.isSome_iff_exists.mp (setPageColor_isSome_of_ok hok1 hcom)
      rw [forwardLoop_cons_lt rest hgt hp2]
      simp only [List.getD_cons_zero]
      rw [setPageColor_label_eq hp2]
    | succ k =>
      have hfold2 : ∀ a : Int, (List.take (k + 1) (p :: rest)).foldl
            (fun x q => max x (posOf sf q)) a
          = (rest.take k).foldl (fun x q => max x (posOf sf q)) (max a (posOf sf p)) := by
        intro a
        rw [List.take_succ_cons, List.foldl_cons]
      rw [hfold2] at hfold ⊢
      have hk' : k < rest.length := by simpa using hk
      have hunset' : (rest.getD k default).label = none := by simpa using hunset
      have hneg : -1 ≤ stageIndicesGet sf.stages p.label (-1) := neg_one_le_posOf sf p
      rcases lt_trichotomy o (stageIndicesGet sf.stages p.label (-1)) with hlt | heq | hgt
      · have h0i : (0 : Int) ≤ stageIndicesGet sf.stages p.label (-1) := by
          have := InvO_neg_one_le hInv
          omega
        obtain ⟨p2, hp2⟩ := Option.isSome_iff_exists.mp (setPageColor_isSome_of_ok hokp hcom)
        rw [forwardLoop_cons_gt rest hlt hp2]
        simp only [List.getD_cons_succ]
        have hmax : max o (posOf sf p) = stageIndicesGet sf.stages p.label (-1) := by
          rw [hip]
          exact max_eq_right (le_of_lt hlt)
        rw [hmax] at hfold ⊢
        exact ih _ k (@InvO_of_posOf_nonneg sf p h0i) hokr hk' hunset' hfold
      · obtain ⟨p2, hp2⟩ := Option.isSome_iff_exists.mp (setPageColor_isSome_of_ok hokp hcom)
        rw [forwardLoop_cons_eq rest heq.symm hp2]
        simp only [List.getD_cons_succ]
        have hmax : max o (posOf sf p) = o := by
          rw [hip, ← heq]
          exact max_self o
        rw [hmax] at hfold ⊢
        exact ih _ k hInv hokr hk' hunset' hfold
      · have h0o : (0 : Int) ≤ o := by omega
        have hok1 := pageLabelOk_stamped hInv h0o p
        obtain ⟨p2, hp2⟩ := Option.isSome_iff_exists.mp (setPageColor_isSome_of_ok hok1 hcom)
        rw [forwardLoop_cons_lt rest hgt hp2]
        simp only [List.getD_cons_succ]
        have hmax : max o (posOf sf p) = o := by
          rw [hip]
          exact max_eq_left (le_of_lt hgt)
        rw [hmax] at hfold ⊢
        exact ih _ k hInv hokr hk' hunset' hfold

theorem backwardLoop_getElem_ge (sf : StageField) :
    ∀ (n : Nat) (y : Int) (pages : List Page) (k : Nat), n ≤ k →
      (backwardLoop sf y pages n)[k]? = pages[k]? := by
  intro n
  induction n with
  | zero => intro y pages k _; rfl
  | succ m ih =>
    intro y pages k hk
    unfold backwardLoop
    by_cases h : stageIndicesGet sf.stages (pages.getD m default).label
        (sf.stages.length : Int) < y
    · rw [if_pos h, ih _ _ _ (by omega)]
    · rw [if_neg h, ih _ _ _ (by omega), List.getElem?_set_ne (by omega)]

theorem backwardLoop_labelOk (sf : StageField) :
    ∀ (n : Nat) (y : Int) (pages : List Page), 0 ≤ y → y.toNat < sf.stages.length →
      (∀ p ∈ pages, pageLabelOk sf p = true) →
      ∀ p ∈ backwardLoop sf y pages n, pageLabelOk sf p = true := by
  intro n
  induction n with
  | zero => intro y pages _ _ hok; exact hok
  | succ m ih =>
    intro y pages h0 hlt hok
    unfold backwardLoop
    by_cases h : stageIndicesGet sf.stages (pages.getD m default).label
        (sf.stages.length : Int) < y
    · rw [if_pos h]
      have hy : y < (sf.stages.length : Int) := by omega
      have hcase : 0 ≤ stageIndicesGet sf.stages (pages.getD m default).label
            (sf.stages.length : Int)
          ∧ (stageIndicesGet sf.stages (pages.getD m default).label
              (sf.stages.length : Int)).toNat < sf.stages.length := by
        cases hl : (pages.getD m default).label with
        | none =>
          rw [hl, stageIndicesGet_none] at h
          rw [stageIndicesGet_none]
          omega
        | some s =>
          rw [hl] at h
          cases hr : lastIndexOf sf.stages s with
          | none =>
            rw [stageIndicesGet_not_found hr] at h
            rw [stageIndicesGet_not_found hr]
            omega
          | some i =>
            rw [stageIndicesGet_found hr] at h
            rw [stageIndicesGet_found hr]
            have := lastIndexOf_lt_length hr
            omega
      exact ih _ _ hcase.1 hcase.2 hok
    · rw [if_neg h]
      refine ih _ _ h0 hlt ?_
      intro p hp
      rcases List.mem_or_eq_of_mem_set hp with hmem | heq
      · exact hok p hmem
      · rw [heq]
        unfold pageLabelOk
        simpa using pyGetStages_mem h0 hlt

theorem backwardLoop_eq_visitBackward (sf : StageField) :
    ∀ (n : Nat) (y : Int) (pages : List Page),
      backwardLoop sf y pages n = visitBackward sf y ((List.range n).reverse) pages := by
  intro n
  induction n with
  | zero => intro y pages; rfl
  | succ m ih =>
    intro y pages
    rw [List.range_succ, List.reverse_append]
    simp only [List.reverse_cons, List.reverse_nil, List.nil_append, List.singleton_append]
    unfold backwardLoop visitBackward
    by_cases h : stageIndicesGet sf.stages (pages.getD m default).label
        (sf.stages.length : Int) < y
    · rw [if_pos h, if_pos h, ih]
    · rw [if_neg h, if_neg h, ih]

theorem posOf_some {sf : StageField} {p : Page} {a : String} (h : p.label = some a) :
    posOf sf p = stageIndicesGet sf.stages (some a) (-1) := by
  unfold posOf
  rw [h]

theorem set_stage_eq {sf : StageField} {pages : List Page} {fb_i : Nat} {stage : String}
    {idx : Nat} (hidx : lastIndexOf sf.stages stage = some idx) :
    set_stage sf pages fb_i stage
      = update_widget sf (some stage)
          (if 0 < fb_i then
            backwardLoop sf ((idx : Int) - 1)
              (pages.set fb_i { pages.getD fb_i default with label := some stage }) fb_i
          else pages.set fb_i { pages.getD fb_i default with label := some stage }) := by
  unfold set_stage
  rw [hidx]

theorem set_stage_ok {sf : StageField} (hcom : colorKeysComplete sf = true)
    {pages : List Page} {fb_i : Nat} {stage : String}
    (hok : ∀ p ∈ pages, pageLabelOk sf p = true)
    (hst : stage ∈ sf.stages.drop 1) :
    (∀ p ∈ (set_stage sf pages fb_i stage).1, pageLabelOk sf p = true)
    ∧ List.Pairwise (fun p q => posOf sf p ≤ posOf sf q) (set_stage sf pages fb_i stage).1
    ∧ (set_stage sf pages fb_i stage).2 = none := by
  obtain ⟨idx, hidx, hidx1⟩ := lastIndexOf_of_mem_drop_one hst
  have hidxlt := lastIndexOf_lt_length hidx
  have hmem : stage ∈ sf.stages := lastIndexOf_mem hidx
  have hok1 : ∀ p ∈ pages.set fb_i { pages.getD fb_i default with label := some stage },
      pageLabelOk sf p = true := by
    intro p hp
    rcases List.mem_or_eq_of_mem_set hp with hmem2 | heq
    · exact hok p hmem2
    · rw [heq]
      unfold pageLabelOk
      simpa using hmem
  have h0y : (0 : Int) ≤ (idx : Int) - 1 := by omega
  have hylt : ((idx : Int) - 1).toNat < sf.stages.length := by omega
  have hok2 : ∀ p ∈ (if 0 < fb_i then
        backwardLoop sf ((idx : Int) - 1)
          (pages.set fb_i { pages.getD fb_i default with label := some stage }) fb_i
      else pages.set fb_i { pages.getD fb_i default with label := some stage }),
      pageLabelOk sf p = true := by
    by_cases hfb : 0 < fb_i
    · rw [if_pos hfb]
      exact backwardLoop_labelOk sf fb_i _ _ h0y hylt hok1
    · rw [if_neg hfb]
      exact hok1
  rw [set_stage_eq hidx]
  have huw : update_widget sf (some stage)
        (if 0 < fb_i then
          backwardLoop sf ((idx : Int) - 1)
            (pages.set fb_i { pages.getD fb_i default with label := some stage }) fb_i
        else pages.set fb_i { pages.getD fb_i default with label := some stage })
      = forwardLoop sf (-1)
          (if 0 < fb_i then
            backwardLoop sf ((idx : Int) - 1)
              (pages.set fb_i { pages.getD fb_i default with label := some stage }) fb_i
          else pages.set fb_i { pages.getD fb_i default with label := some stage }) := by
    simp only [update_widget]
    rw [if_pos hmem]
  rw [huw]
  obtain ⟨e1, e2, e3, e4⟩ := forwardLoop_wf hcom _ (-1) (InvO_neg1 sf) hok2
  exact ⟨e2, e3, e1⟩

theorem runSetStages_labelOk {sf : StageField} (hcom : colorKeysComplete sf = true) :
    ∀ (calls : List (Nat × String)) (pages : List Page),
      (∀ p ∈ pages, pageLabelOk sf p = true) →
      (∀ c ∈ calls, c.2 ∈ sf.stages.drop 1) →
      ∀ p ∈ runSetStages sf pages calls, pageLabelOk sf p = true := by
  intro calls
  induction calls with
  | nil => intro pages hok _; exact hok
  | cons c cs ih =>
    intro pages hok hcs
    have h1 := (@set_stage_ok sf hcom _ c.1 c.2 hok (hcs c (List.mem_cons_self c cs))).1
    have hrw : runSetStages sf pages (c :: cs)
        = runSetStages sf (set_stage sf pages c.1 c.2).1 cs := by
      unfold runSetStages
      rw [List.foldl_cons]
    rw [hrw]
    exact ih _ h1 (fun d hd => hcs d (List.mem_cons_of_mem c hd))

/-- Claim C1: for every finite page sequence with well-formed labels and every
nonempty sequence of setStage calls, each targeting a stage in stages[1:] at a
page of the sequence, the set stage labels read left to right across the final
page sequence are non-decreasing in stage position: for every adjacent pair of
pages with both labels set, the position of the earlier label is at most the
position of the later label. -/
theorem c1_monotone_after_set_stage_calls (sf : StageField) (pages : List Page)
    (calls : List (Nat × String))
    (hcom : colorKeysComplete sf = true)
    (hlab : ∀ p ∈ pages, pageLabelOk sf p = true)
    (hne : calls ≠ [])
    (hcalls : ∀ c ∈ calls, c.2 ∈ sf.stages.drop 1 ∧ c.1 < pages.length) :
    stagesMonotone sf (runSetStages sf pages calls) := by
  rcases List.eq_nil_or_concat calls with h | ⟨cs, c, hcc⟩
  · exact absurd h hne
  · rw [List.concat_eq_append] at hcc
    subst hcc
    have hrun : runSetStages sf pages (cs ++ [c])
        = (set_stage sf (runSetStages sf pages cs) c.1 c.2).1 := by
      unfold runSetStages
      rw [List.foldl_append, List.foldl_cons, List.foldl_nil]
    have hokmid : ∀ p ∈ runSetStages sf pages cs, pageLabelOk sf p = true :=
      runSetStages_labelOk hcom cs pages hlab
        (fun d hd => (hcalls d (List.mem_append_left [c] hd)).1)
    have hstc : c.2 ∈ sf.stages.drop 1 :=
      (hcalls c (List.mem_append_right cs (List.mem_cons_self c []))).1
    have hpw := (@set_stage_ok sf hcom _ c.1 c.2 hokmid hstc).2.1
    rw [hrun]
    unfold stagesMonotone
    refine List.Pairwise.chain' (List.Pairwise.imp ?_ hpw)
    intro p q hpq a b ha hb
    rw [← posOf_some ha, ← posOf_some hb]
    exact hpq

/-- Claim C10: when update_widget completes without raising, the pages with
unset labels form a contiguous run at the front of the sequence: every page
at or after a page with a set label also has a set label. -/
theorem c10_unset_labels_form_front_run (sf : StageField) (pages pages' : List Page)
    (value : Option String)
    (hv : colorKeysValid sf = true)
    (h : update_widget sf value pages = (pages', none)) :
    ∀ i j : Nat, i ≤ j → j < pages'.length →
      ((pages'.getD i default).label).isSome = true →
      ((pages'.getD j default).label).isSome = true := by
  have hf : forwardLoop sf (-1) pages = (pages', none) := by
    cases value with
    | none => exact h
    | some v =>
      simp only [update_widget] at h
      by_cases hvs : v ∈ sf.stages
      · rw [if_pos hvs] at h
        exact h
      · rw [if_neg hvs] at h
        simp only [Prod.mk.injEq] at h
        exact absurd h.2 (by simp)
  obtain ⟨hpw, _, hnn⟩ := forwardLoop_sorted hv pages pages' (-1) (InvO_neg1 sf) hf
  intro i j hij hjlen hsome
  rcases eq_or_lt_of_le hij with heq | hlt
  · subst heq
    exact hsome
  · have hilen : i < pages'.length := lt_trans hlt hjlen
    have hmi : pages'.getD i default ∈ pages' := by
      rw [List.getD_eq_getElem _ _ hilen]
      exact List.getElem_mem hilen
    have h0i := hnn _ hmi hsome
    have hrel : posOf sf (pages'.getD i default) ≤ posOf sf (pages'.getD j default) := by
      rw [List.getD_eq_getElem _ _ hilen, List.getD_eq_getElem _ _ hjlen]
      exact List.pairwise_iff_getElem.mp hpw i j hilen hjlen hlt
    have h0j : 0 ≤ posOf sf (pages'.getD j default) := le_trans h0i hrel
    obtain ⟨s, n, hl, _, _⟩ := posOf_nonneg_elim h0j
    rw [hl]
    rfl

/-- Claim C5: update_widget is idempotent on labels; a second call with the
same valid displayValue and no intervening set_stage changes no label. -/
theorem c5_update_widget_idempotent_on_labels (sf : StageField) (pages : List Page)
    (value : Option String)
    (hv : colorKeysValid sf = true) (hcom : colorKeysComplete sf = true)
    (hval : value = none ∨ ∃ v, value = some v ∧ v ∈ sf.stages) :
    ((update_widget sf value (update_widget sf value pages).1).1).map Page.label
      = ((update_widget sf value pages).1).map Page.label := by
  have huw : ∀ ps : List Page, update_widget sf value ps = forwardLoop sf (-1) ps := by
    intro ps
    rcases hval with hn | ⟨v, hv2, hvs⟩
    · rw [hn]
      rfl
    · rw [hv2]
      simp only [update_widget]
      rw [if_pos hvs]
  rw [huw, huw]
  cases herr : (forwardLoop sf (-1) pages).2 with
  | none =>
    obtain ⟨hpw, _, _⟩ := forwardLoop_sorted hv pages (forwardLoop sf (-1) pages).1 (-1)
      (InvO_neg1 sf) (by rw [← herr])
    exact forwardLoop_stable (forwardLoop sf (-1) pages).1 (-1) hpw
      (fun p _ => neg_one_le_posOf sf p)
  | some e =>
    have hlab := forwardLoop_err_labels hcom pages (-1) (InvO_neg1 sf) (by rw [herr]; rfl)
    exact (forwardLoop_congr (forwardLoop sf (-1) pages).1 pages (-1) hlab).1

/-- Claim C6: a value that is neither None nor a known stage name makes
update_widget raise the invalid-value error before the repair and recolor
loop, so the call mutates no page. -/
theorem c6_invalid_value_error_no_mutation (sf : StageField) (pages : List Page) (v : String)
    (hv : v ∉ sf.stages) :
    update_widget sf (some v) pages
      = (pages, some ("Value " ++ v ++ " not in list of stages.")) := by
  simp only [update_widget]
  rw [if_neg hv]

theorem c1_witness : stagesMonotone sfEx (runSetStages sfEx pages5 [(2, "adult")]) :=
  c1_monotone_after_set_stage_calls sfEx pages5 [(2, "adult")] (by decide) (by decide)
    (by decide) (by decide)

theorem c10_witness :
    ((([⟨some "larva", some (184, 255, 184)⟩,
        ⟨some "larva", some (184, 255, 184)⟩] : List Page).getD 1 default).label).isSome
      = true :=
  c10_unset_labels_form_front_run sfEx [⟨some "larva", none⟩, ⟨none, none⟩]
    [⟨some "larva", some (184, 255, 184)⟩, ⟨some "larva", some (184, 255, 184)⟩] none
    (by decide) (by decide) 0 1 (by decide) (by decide) (by decide)

theorem c5_witness :
    ((update_widget sfEx (some "adult")
        (update_widget sfEx (some "adult")
          [⟨some "adult", none⟩, ⟨some "egg", none⟩]).1).1).map Page.label
      = ((update_widget sfEx (some "adult")
          [⟨some "adult", none⟩, ⟨some "egg", none⟩]).1).map Page.label :=
  c5_update_widget_idempotent_on_labels sfEx [⟨some "adult", none⟩, ⟨some "egg", none⟩]
    (some "adult") (by decide) (by decide) (Or.inr ⟨"adult", rfl, by decide⟩)

theorem c6_witness :
    update_widget sfEx (some "zombie") pages5
      = (pages5, some ("Value " ++ "zombie" ++ " not in list of stages.")) :=
  c6_invalid_value_error_no_mutation sfEx pages5 "zombie" (by decide)

theorem mem_of_pageLabelOk {sf : StageField} {p : Page} {s : String}
    (hok : pageLabelOk sf p = true) (hl : p.label = some s) : s ∈ sf.stages := by
  unfold pageLabelOk at hok
  rw [hl] at hok
  simpa using hok

/-- Claim C3: with the default stages and five unset pages, set_stage on the
middle page with target adult stamps the two earlier pages to larva in the
backward pass and the two later pages to adult in the forward pass, ending
with labels larva, larva, adult, adult, adult and no error. -/
theorem c3_scenario_adult_on_middle_page :
    (StageField.init "stage" ["egg", "larva", "adult", "dead"]
        ["hatch", "adult", "dead"] none).map
        (fun sf => ((set_stage sf pages5 2 "adult").1.map Page.label,
                    (set_stage sf pages5 2 "adult").2))
      = some ([some "larva", some "larva", some "adult", some "adult", some "adult"],
          none) := by
  decide

/-- Claim C2: the backward pass of set_stage visits exactly the pages strictly
before the current page in reverse order, following the spec-modelled
visitBackward walk that starts the youngest-allowed index at
position(targetStage) - 1, leaves a page whose position (unset reading above
every real stage) is strictly below youngest-allowed untouched while lowering
the index to it, and overwrites any other visited page with
stages[youngest-allowed]; pages at or after the current page are untouched by
the walk, and the walk is empty when the current page is the first one. -/
theorem c2_backward_pass_follows_spec (sf : StageField) (pages : List Page) (fb_i : Nat)
    (stage : String) (idx : Nat)
    (hidx : lastIndexOf sf.stages stage = some idx) :
    set_stage sf pages fb_i stage
      = update_widget sf (some stage)
          (visitBackward sf ((idx : Int) - 1) ((List.range fb_i).reverse)
            (pages.set fb_i { pages.getD fb_i default with label := some stage }))
    ∧ (∀ k : Nat, fb_i ≤ k →
        (visitBackward sf ((idx : Int) - 1) ((List.range fb_i).reverse)
          (pages.set fb_i { pages.getD fb_i default with label := some stage }))[k]?
          = (pages.set fb_i { pages.getD fb_i default with label := some stage })[k]?)
    ∧ (fb_i = 0 →
        set_stage sf pages 0 stage
          = update_widget sf (some stage)
              (pages.set 0 { pages.getD 0 default with label := some stage })) := by
  refine ⟨?_, ?_, ?_⟩
  · rw [set_stage_eq hidx]
    by_cases hfb : 0 < fb_i
    · rw [if_pos hfb, backwardLoop_eq_visitBackward]
    · have h0 : fb_i = 0 := by omega
      subst h0
      rw [if_neg hfb]
      rfl
  · intro k hk
    rw [← backwardLoop_eq_visitBackward]
    exact backwardLoop_getElem_ge sf fb_i _ _ k hk
  · intro h0
    rw [set_stage_eq hidx, if_neg (by omega)]

theorem c2_witness :
    set_stage sfEx pages5 2 "adult"
      = update_widget sfEx (some "adult")
          (visitBackward sfEx (((2 : Nat) : Int) - 1) ((List.range 2).reverse)
            (pages5.set 2 { pages5.getD 2 default with label := some "adult" })) :=
  (c2_backward_pass_follows_spec sfEx pages5 2 "adult" 2 (by decide)).1

/-- Claim C4: in the forward pass, an unset page preceded only by unset pages
is never auto-stamped (the both-unset equal case leaves it untouched), while
an unset page coming after some set page is stamped with the stage at the
running maximum position accumulated over the pages before it. -/
theorem c4_forward_pass_unset_handling :
    (∀ (sf : StageField) (l1 : List Page) (p : Page) (l2 : List Page),
      (∀ q ∈ l1, q.label = none) → p.label = none →
      ((forwardLoop sf (-1) (l1 ++ p :: l2)).1.getD l1.length default).label = none)
    ∧ (∀ (sf : StageField) (pages : List Page) (k : Nat),
      colorKeysComplete sf = true →
      (∀ p ∈ pages, pageLabelOk sf p = true) →
      k < pages.length →
      (pages.getD k default).label = none →
      (∃ j : Nat, j < k ∧ ((pages.getD j default).label).isSome = true) →
      ((forwardLoop sf (-1) pages).1.getD k default).label
        = some (pyGetStages sf.stages (runMax sf (pages.take k)))) := by
  constructor
  · intro sf l1 p l2 hl1 hp
    rw [forwardLoop_unset_run l1 (p :: l2) hl1]
    have hi : stageIndicesGet sf.stages p.label (-1) = -1 := by
      rw [hp]
      rfl
    rw [forwardLoop_cons_eq l2 hi (setPageColor_none_label hp)]
    have hlen : (l1.map fun q => ({ q with color := none } : Page)).length = l1.length := by
      simp
    rw [List.getD_append_right _ _ _ _ (by omega), hlen, Nat.sub_self, List.getD_cons_zero]
    exact hp
  · intro sf pages k hcom hok hk hunset hex
    obtain ⟨j, hjk, hjs⟩ := hex
    have hjlen : j < pages.length := lt_trans hjk hk
    have hqmem : pages.getD j default ∈ pages := by
      rw [List.getD_eq_getElem _ _ hjlen]
      exact List.getElem_mem hjlen
    obtain ⟨s, hls⟩ := Option.isSome_iff_exists.mp hjs
    have hsm : s ∈ sf.stages := mem_of_pageLabelOk (hok _ hqmem) hls
    have hposq : 0 ≤ posOf sf (pages.getD j default) := posOf_of_label_mem hls hsm
    have hjtake : j < (pages.take k).length := by
      simp only [List.length_take]
      omega
    have hmemtake : pages.getD j default ∈ pages.take k := by
      have h1 : (pages.take k).getD j default = pages.getD j default := by
        rw [List.getD_eq_getElem _ _ hjtake, List.getD_eq_getElem _ _ hjlen]
        exact List.getElem_take pages
      rw [← h1, List.getD_eq_getElem _ _ hjtake]
      exact List.getElem_mem hjtake
    have hfold : 0 ≤ runMax sf (pages.take k) := by
      unfold runMax
      have := foldl_max_ge_mem sf (pages.take k) (-1) _ hmemtake
      omega
    unfold runMax at hfold ⊢
    exact forwardLoop_stamp hcom pages (-1) k (InvO_neg1 sf) hok hk hunset hfold

theorem c4_witness :
    ((forwardLoop sfEx (-1)
          ([⟨none, none⟩] ++ (⟨none, none⟩ : Page) :: [])).1.getD 1 default).label = none
    ∧ ((forwardLoop sfEx (-1)
          [⟨some "adult", none⟩, ⟨none, none⟩]).1.getD 1 default).label
        = some (pyGetStages sfEx.stages
            (runMax sfEx (([⟨some "adult", none⟩, ⟨none, none⟩] : List Page).take 1))) :=
  ⟨c4_forward_pass_unset_handling.1 sfEx [⟨none, none⟩] ⟨none, none⟩ []
      (by decide) (by decide),
   c4_forward_pass_unset_handling.2 sfEx [⟨some "adult", none⟩, ⟨none, none⟩] 1
      (by decide) (by decide) (by decide) (by decide) ⟨0, by decide, by decide⟩⟩

theorem defaultShortcuts_getElem (T : List String) :
    ∀ (sc : List String), defaultShortcuts T = some sc →
      ∀ i : Nat, sc[i]? = transitionFirstLetter (T.getD i "") := by
  induction T with
  | nil =>
    intro sc h i
    simp only [defaultShortcuts, Option.some.injEq] at h
    subst h
    simp [transitionFirstLetter]
  | cons t ts ih =>
    intro sc h i
    cases hf : transitionFirstLetter t with
    | none => simp [defaultShortcuts, hf] at h
    | some c =>
      cases hd : defaultShortcuts ts with
      | none => simp [defaultShortcuts, hf, hd] at h
      | some cs =>
        simp only [defaultShortcuts, hf, hd, Option.some.injEq] at h
        subst h
        cases i with
        | zero => simp [hf]
        | succ n => simpa using ih cs hd n

/-- Claim C9: when no shortcut list is supplied, each shortcut defaults to the
first letter of the corresponding transition name. -/
theorem c9_default_shortcuts_first_letter (name : String) (S T : List String)
    (sf : StageField) (h : StageField.init name S T none = some sf) :
    ∀ i : Nat, sf.shortcuts[i]? = transitionFirstLetter (T.getD i "") := by
  unfold StageField.init at h
  by_cases hlen : (T.length : Int) = (S.length : Int) - 1
  · rw [if_pos hlen] at h
    cases hd : defaultShortcuts T with
    | none => rw [hd] at h; simp at h
    | some sc =>
      rw [hd] at h
      simp only [Option.map_some', Option.some.injEq] at h
      have hsc : sf.shortcuts = sc := by rw [← h]
      rw [hsc]
      exact defaultShortcuts_getElem T sc hd
  · rw [if_neg hlen] at h
    simp at h

theorem c9_witness :
    sfEx.shortcuts[0]?
      = transitionFirstLetter ((["hatch", "adult", "dead"] : List String).getD 0 "") :=
  c9_default_shortcuts_first_letter "stage" ["egg", "larva", "adult", "dead"]
    ["hatch", "adult", "dead"] sfEx (by decide) 0

theorem transitionFirstLetter_isSome_iff (t : String) :
    (transitionFirstLetter t).isSome = true ↔ t ≠ "" := by
  cases t with
  | mk data =>
    cases data with
    | nil => simp [transitionFirstLetter, String.ext_iff]
    | cons c cs => simp [transitionFirstLetter, String.ext_iff]

theorem defaultShortcuts_isSome_iff (T : List String) :
    (defaultShortcuts T).isSome = true ↔ ∀ t ∈ T, t ≠ "" := by
  induction T with
  | nil => simp [defaultShortcuts]
  | cons t ts ih =>
    constructor
    · intro h u hu
      cases hf : transitionFirstLetter t with
      | none => simp [defaultShortcuts, hf] at h
      | some c =>
        cases hd : defaultShortcuts ts with
        | none => simp [defaultShortcuts, hf, hd] at h
        | some cs =>
          rcases List.mem_cons.mp hu with h1 | h2
          · subst h1
            exact (transitionFirstLetter_isSome_iff u).mp (by rw [hf]; rfl)
          · exact (ih.mp (by rw [hd]; rfl)) u h2
    · intro h
      have ht : (transitionFirstLetter t).isSome = true :=
        (transitionFirstLetter_isSome_iff t).mpr (h t (List.mem_cons_self t ts))
      have hts : (defaultShortcuts ts).isSome = true :=
        ih.mpr (fun u hu => h u (List.mem_cons_of_mem t hu))
      obtain ⟨c, hf⟩ := Option.isSome_iff_exists.mp ht
      obtain ⟨cs, hd⟩ := Option.isSome_iff_exists.mp hts
      simp [defaultShortcuts, hf, hd]

/-- Claim C7 counterexample: the stage list [a, b] and transition list with
the single empty name satisfy the length relation len(T) == len(S) - 1, yet
construction fails, because the default shortcut computation indexes the
first character of the empty transition name. -/
theorem c7_counterexample :
    ((([""] : List String).length : Int) = ((["a", "b"] : List String).length : Int) - 1)
    ∧ StageField.init "stage" ["a", "b"] [""] none = none := by
  decide

/-- Claim C7 (amended): construction succeeds exactly when the transition
count is one less than the stage count and, in case no shortcut list is
supplied, every transition name is nonempty; any other length relation fails,
and so does an empty transition name with defaulted shortcuts. -/
theorem c7_amended_construction_iff (name : String) (S T : List String)
    (sc : Option (List String)) :
    (StageField.init name S T sc).isSome = true
      ↔ ((T.length : Int) = (S.length : Int) - 1
          ∧ (sc ≠ none ∨ ∀ t ∈ T, t ≠ "")) := by
  unfold StageField.init
  by_cases hlen : (T.length : Int) = (S.length : Int) - 1
  · rw [if_pos hlen]
    cases sc with
    | some l => simp [hlen]
    | none =>
      simp only [hlen, true_and, Option.isSome_map']
      constructor
      · intro h
        exact Or.inr ((defaultShortcuts_isSome_iff T).mp h)
      · intro h
        rcases h with h | h
        · exact absurd rfl h
        · exact (defaultShortcuts_isSome_iff T).mpr h
  · rw [if_neg hlen]
    simp [hlen]

theorem init_fields {name : String} {S T : List String} {sc : Option (List String)}
    {sf : StageField} (h : StageField.init name S T sc = some sf) :
    sf.stages = S ∧ sf.colors = colorWrites S := by
  unfold StageField.init at h
  by_cases hlen : (T.length : Int) = (S.length : Int) - 1
  · rw [if_pos hlen] at h
    cases sc with
    | some l =>
      simp only [Option.some.injEq] at h
      rw [← h]
      exact ⟨rfl, rfl⟩
    | none =>
      cases hd : defaultShortcuts T with
      | none => rw [hd] at h; simp at h
      | some l =>
        rw [hd] at h
        simp only [Option.map_some', Option.some.injEq] at h
        rw [← h]
        exact ⟨rfl, rfl⟩
  · rw [if_neg hlen] at h
    simp at h

theorem find_key_of_nodup :
    ∀ (l : List (String × Color)) (k : String) (v : Color),
      (l.map Prod.fst).Nodup → (k, v) ∈ l →
      l.find? (fun kv => decide (kv.1 = k)) = some (k, v) := by
  intro l
  induction l with
  | nil => intro k v _ hm; simp at hm
  | cons kv0 l ih =>
    intro k v hnd hm
    simp only [List.map_cons, List.nodup_cons] at hnd
    obtain ⟨hnotin, hnd2⟩ := hnd
    by_cases hk : kv0.1 = k
    · rcases List.mem_cons.mp hm with h1 | h2
      · rw [List.find?_cons_of_pos _ (by simp [hk]), ← h1]
      · exact absurd (by rw [hk]; exact List.mem_map.mpr ⟨(k, v), h2, rfl⟩) hnotin
    · rw [List.find?_cons_of_neg _ (by simp [hk])]
      apply ih k v hnd2
      rcases List.mem_cons.mp hm with h1 | h2
      · exact absurd (by rw [← h1]) hk
      · exact h2

theorem colorsFind_of_nodup {l : List (String × Color)} {k : String} {v : Color}
    (hnd : (l.map Prod.fst).Nodup) (hm : (k, v) ∈ l) : colorsFind l k = some v := by
  unfold colorsFind
  rw [find_key_of_nodup l.reverse k v ?_ (List.mem_reverse.mpr hm)]
  · rfl
  · rw [List.map_reverse]
    exact List.nodup_reverse.mpr hnd

theorem nodup_getD_ne (S : List String) (hnd : S.Nodup) (i j : Nat)
    (hi : i < S.length) (hj : j < S.length) (hij : i ≠ j) :
    S.getD i "" ≠ S.getD j "" := by
  intro hEq
  rw [List.getD_eq_getElem _ _ hi, List.getD_eq_getElem _ _ hj] at hEq
  exact hij ((List.Nodup.getElem_inj_iff hnd).mp hEq)

theorem cycleColors_getD (n j : Nat) (hj : j < n) :
    (cycleColors n).getD j (0, 0, 0)
      = COLOR_CYCLE.getD (j % COLOR_CYCLE.length) (0, 0, 0) := by
  unfold cycleColors
  rw [List.getD_eq_getElem _ _ (by simpa using hj)]
  rw [List.getElem_map, List.getElem_range]

theorem cycleColorsFrom_zero (n : Nat) : cycleColorsFrom 0 n = cycleColors n := by
  unfold cycleColorsFrom cycleColors
  refine List.map_eq_map_iff.mpr ?_
  intro j _
  rw [Nat.zero_add]

theorem colorWritesFrom_zero (stages : List String) :
    colorWritesFrom 0 stages = colorWrites stages := by
  unfold colorWritesFrom colorWrites
  rw [cycleColorsFrom_zero]

theorem initFrom_zero (name : String) (S T : List String) (sc : Option (List String)) :
    StageField.initFrom 0 name S T sc = StageField.init name S T sc := by
  unfold StageField.initFrom StageField.init
  rw [colorWritesFrom_zero]

theorem cycleColorsFrom_getD (off n j : Nat) (hj : j < n) :
    (cycleColorsFrom off n).getD j (0, 0, 0)
      = COLOR_CYCLE.getD ((off + j) % COLOR_CYCLE.length) (0, 0, 0) := by
  unfold cycleColorsFrom
  rw [List.getD_eq_getElem _ _ (by simpa using hj)]
  rw [List.getElem_map, List.getElem_range]

theorem initFrom_fields {off : Nat} {name : String} {S T : List String}
    {sc : Option (List String)} {sf : StageField}
    (h : StageField.initFrom off name S T sc = some sf) :
    sf.stages = S ∧ sf.colors = colorWritesFrom off S := by
  unfold StageField.initFrom at h
  by_cases hlen : (T.length : Int) = (S.length : Int) - 1
  · rw [if_pos hlen] at h
    cases sc with
    | some l =>
      simp only [Option.some.injEq] at h
      rw [← h]
      exact ⟨rfl, rfl⟩
    | none =>
      cases hd : defaultShortcuts T with
      | none => rw [hd] at h; simp at h
      | some l =>
        rw [hd] at h
        simp only [Option.map_some', Option.some.injEq] at h
        rw [← h]
        exact ⟨rfl, rfl⟩
  · rw [if_neg hlen] at h
    simp at h

/-- Claim C8 counterexample: the claim fails on the code at explicit inputs.
With the one-stage list [x] construction succeeds but the dict literal's
second write overwrites the first, so S[0] maps to the fixed last color, not
the first color; the same collision hits a duplicated name, as in [a, b, a].
And the interior palette is drawn from one class-level itertools.cycle shared
by every construction of a process: a second construction from the same stage
list finds the cycle advanced by the two colors the first construction drew,
so [egg, larva, adult, dead] maps larva to a different color the second time,
against the claim that the same stage list produces the same mapping. -/
theorem c8_counterexample :
    ((StageField.init "stage" ["x"] [] none).map
        (fun sf => colorsFind sf.colors ((["x"] : List String).getD 0 ""))
      = some (some LAST_COLOR)
      ∧ LAST_COLOR ≠ FIRST_COLOR)
    ∧ (StageField.init "stage" ["a", "b", "a"] ["t", "u"] none).map
        (fun sf => colorsFind sf.colors ((["a", "b", "a"] : List String).getD 0 ""))
      = some (some LAST_COLOR)
    ∧ (StageField.initFrom 0 "stage" ["egg", "larva", "adult", "dead"]
          ["hatch", "adult", "dead"] none).map
        (fun sf => colorsFind sf.colors "larva")
      ≠ (StageField.initFrom 2 "stage" ["egg", "larva", "adult", "dead"]
          ["hatch", "adult", "dead"] none).map
        (fun sf => colorsFind sf.colors "larva") := by
  decide

/-- Claim C8 (amended): for a stage list of at least two distinct names, the
color mapping built by a construction that finds the shared class-level
palette cycle advanced by off draws sends the first stage to the fixed first
color, the last stage to the fixed last color, and the i-th interior stage to
the palette color at offset (off + i - 1) modulo the palette length; the
mapping is determined by the stage list together with that cycle position, so
in particular the first construction of every run (off = 0) of the same stage
list produces the same mapping. -/
theorem c8_amended_color_mapping (off : Nat) (name : String) (S T : List String)
    (sc : Option (List String)) (sf : StageField)
    (h : StageField.initFrom off name S T sc = some sf)
    (hS2 : 2 ≤ S.length) (hnd : S.Nodup) :
    colorsFind sf.colors (S.getD 0 "") = some FIRST_COLOR
    ∧ colorsFind sf.colors (S.getD (S.length - 1) "") = some LAST_COLOR
    ∧ (∀ i : Nat, 1 ≤ i → i < S.length - 1 →
        colorsFind sf.colors (S.getD i "")
          = some (COLOR_CYCLE.getD ((off + (i - 1)) % COLOR_CYCLE.length) (0, 0, 0)))
    ∧ (∀ (name2 : String) (T2 : List String) (sc2 : Option (List String)) (sf2 : StageField),
        StageField.initFrom off name2 S T2 sc2 = some sf2 → sf2.colors = sf.colors) := by
  have hcol : sf.colors = colorWritesFrom off S := (initFrom_fields h).2
  have hmidlen : ((S.drop 1).dropLast).length = S.length - 2 := by
    simp only [List.length_dropLast, List.length_drop]
    omega
  have hcyclen : (cycleColorsFrom off (S.length - 2)).length = S.length - 2 := by
    simp [cycleColorsFrom]
  have hmidget : ∀ j, j < S.length - 2 →
      ((S.drop 1).dropLast).getD j "" = S.getD (j + 1) "" := by
    intro j hj
    have hlt : j < ((S.drop 1).dropLast).length := by rw [hmidlen]; exact hj
    rw [List.getD_eq_getElem _ _ hlt, List.getElem_dropLast, List.getElem_drop,
      List.getD_eq_getElem S "" (by omega)]
    simp only [Nat.add_comm 1 j]
  have hkeys : (colorWritesFrom off S).map Prod.fst
      = S.getD 0 "" :: S.getD (S.length - 1) "" :: (S.drop 1).dropLast := by
    unfold colorWritesFrom
    rw [List.map_append, List.map_fst_zip _ _ (by rw [hmidlen, hcyclen])]
    rfl
  have h0mid : S.getD 0 "" ∉ (S.drop 1).dropLast := by
    intro hmem
    obtain ⟨j, hj, hje⟩ := List.mem_iff_getElem.mp hmem
    have hj2 : j < S.length - 2 := by rw [hmidlen] at hj; exact hj
    have hje2 : ((S.drop 1).dropLast).getD j "" = S.getD 0 "" := by
      rw [List.getD_eq_getElem _ _ hj]
      exact hje
    rw [hmidget j hj2] at hje2
    exact nodup_getD_ne S hnd (j + 1) 0 (by omega) (by omega) (by omega) hje2
  have hLmid : S.getD (S.length - 1) "" ∉ (S.drop 1).dropLast := by
    intro hmem
    obtain ⟨j, hj, hje⟩ := List.mem_iff_getElem.mp hmem
    have hj2 : j < S.length - 2 := by rw [hmidlen] at hj; exact hj
    have hje2 : ((S.drop 1).dropLast).getD j "" = S.getD (S.length - 1) "" := by
      rw [List.getD_eq_getElem _ _ hj]
      exact hje
    rw [hmidget j hj2] at hje2
    exact nodup_getD_ne S hnd (j + 1) (S.length - 1) (by omega) (by omega) (by omega) hje2
  have hmidnd : ((S.drop 1).dropLast).Nodup :=
    List.Nodup.sublist ((List.dropLast_sublist _).trans (List.drop_sublist 1 S)) hnd
  have hknd : ((colorWritesFrom off S).map Prod.fst).Nodup := by
    rw [hkeys]
    refine List.nodup_cons.mpr ⟨?_, List.nodup_cons.mpr ⟨hLmid, hmidnd⟩⟩
    intro hmem
    rcases List.mem_cons.mp hmem with h1 | h2
    · exact nodup_getD_ne S hnd 0 (S.length - 1) (by omega) (by omega) (by omega) h1
    · exact h0mid h2
  have hm1 : (S.getD 0 "", FIRST_COLOR) ∈ colorWritesFrom off S := by
    unfold colorWritesFrom
    exact List.mem_append_left _ (List.mem_cons_self _ _)
  have hm2 : (S.getD (S.length - 1) "", LAST_COLOR) ∈ colorWritesFrom off S := by
    unfold colorWritesFrom
    exact List.mem_append_left _ (List.mem_cons_of_mem _ (List.mem_cons_self _ _))
  have hm3 : ∀ i : Nat, 1 ≤ i → i < S.length - 1 →
      (S.getD i "", COLOR_CYCLE.getD ((off + (i - 1)) % COLOR_CYCLE.length) (0, 0, 0))
        ∈ colorWritesFrom off S := by
    intro i h1 h2
    unfold colorWritesFrom
    apply List.mem_append_right
    have hi1 : i - 1
        < (((S.drop 1).dropLast).zip (cycleColorsFrom off (S.length - 2))).length := by
      rw [List.length_zip, hmidlen, hcyclen]
      omega
    have hmlt : i - 1 < ((S.drop 1).dropLast).length := by rw [hmidlen]; omega
    have hclt : i - 1 < (cycleColorsFrom off (S.length - 2)).length := by rw [hcyclen]; omega
    refine List.mem_iff_getElem.mpr ⟨i - 1, hi1, ?_⟩
    rw [List.getElem_zip, Prod.mk.injEq]
    constructor
    · rw [← List.getD_eq_getElem ((S.drop 1).dropLast) "" hmlt, hmidget (i - 1) (by omega)]
      have hidx : i - 1 + 1 = i := by omega
      rw [hidx]
    · rw [← List.getD_eq_getElem (cycleColorsFrom off (S.length - 2)) (0, 0, 0) hclt,
        cycleColorsFrom_getD off (S.length - 2) (i - 1) (by omega)]
  rw [hcol]
  refine ⟨colorsFind_of_nodup hknd hm1, colorsFind_of_nodup hknd hm2, ?_, ?_⟩
  · intro i h1 h2
    exact colorsFind_of_nodup hknd (hm3 i h1 h2)
  · intro name2 T2 sc2 sf2 h2
    exact (initFrom_fields h2).2

theorem c8_witness :
    colorsFind sfEx.colors ((["egg", "larva", "adult", "dead"] : List String).getD 0 "")
        = some FIRST_COLOR
    ∧ colorsFind sfEx.colors
        ((["egg", "larva", "adult", "dead"] : List String).getD
          ((["egg", "larva", "adult", "dead"] : List String).length - 1) "")
        = some LAST_COLOR
    ∧ colorsFind sfEx.colors ((["egg", "larva", "adult", "dead"] : List String).getD 1 "")
        = some (COLOR_CYCLE.getD ((0 + (1 - 1)) % COLOR_CYCLE.length) (0, 0, 0)) := by
  obtain ⟨e1, e2, e3, _⟩ := c8_amended_color_mapping 0 "stage"
    ["egg", "larva", "adult", "dead"] ["hatch", "adult", "dead"] (some ["h", "a", "d"]) sfEx
    (by decide) (by decide) (by decide)
  exact ⟨e1, e2, e3 1 (by decide) (by decide)⟩

theorem c7_witness :
    (StageField.init "stage" ["egg", "larva", "adult", "dead"]
        ["hatch", "adult", "dead"] none).isSome = true :=
  (c7_amended_construction_iff "stage" ["egg", "larva", "adult", "dead"]
      ["hatch", "adult", "dead"] none).mpr ⟨by decide, Or.inr (by decide)⟩
